import Mathlib

/-!
Shallow embedding of `opencog/util/zipf.h` (cogutils): the rejection-inversion
sampler `zipf_distribution` and the table-based `zipf_table_distribution`.
C++ `double` values are modelled as real numbers; the caller-supplied
`std::mt19937` generator is modelled by the stream of variates it feeds to the
uniform / discrete distribution adaptors.
-/

namespace Zipf

noncomputable section

open Classical

/-- Tolerance `epsilon = 2e-5` of `zipf_distribution` (zipf.h line 129). -/
def epsilon : ℝ := 2e-5

/-- Helper `(exp(x) - 1) / x` (zipf.h lines 132-138): library evaluation for
`|x| > epsilon`, truncated power series otherwise. -/
def expxm1bx (x : ℝ) : ℝ :=
  if epsilon < |x| then (Real.exp x - 1) / x
  else 1 + x / 2 * (1 + x / 3 * (1 + x / 4))

/-- Helper `log(1 + x) / x` (zipf.h lines 141-147): library evaluation for
`|x| > epsilon`, truncated power series otherwise. -/
def log1pxbx (x : ℝ) : ℝ :=
  if epsilon < |x| then Real.log (1 + x) / x
  else 1 - x * (1 / 2 - x * (1 / 3 - x * (1 / 4)))

/-- The hat function `h(x) = 1/(x+q)^s` (zipf.h lines 152-155). -/
def zipfh (s q x : ℝ) : ℝ := (x + q) ^ (-s)

/-- Integral `H` of the hat function (zipf.h lines 174-181): two regimes
selected by the stored `spole` flag. -/
def zipfH (_s q oms : ℝ) (spole : Prop) (x : ℝ) : ℝ :=
  if spole then Real.log (x + q) * expxm1bx (oms * Real.log (x + q))
  else (x + q) ^ oms / oms

/-- Inverse of `H` (zipf.h lines 191-197); `rvs` is the stored reciprocal of
`oms = 1 - s`. -/
def zipfHinv (q oms rvs : ℝ) (spole : Prop) (y : ℝ) : ℝ :=
  if spole then Real.exp (y * log1pxbx (oms * y)) - q
  else (y * oms) ^ rvs - q

/-- Semantics of `std::round`: round half away from zero, as an integer. -/
def cppRound (x : ℝ) : ℤ := if x < 0 then -⌊-x + 1 / 2⌋ else ⌊x + 1 / 2⌋

/-- State of a constructed `zipf_distribution` object (zipf.h lines 115-125);
`distLo`, `distHi` model the stored `std::uniform_real_distribution(H_x1, H_n)`
member, whose draws lie in `[distLo, distHi)`. -/
structure ZipfDist where
  n : ℕ
  s : ℝ
  q : ℝ
  oms : ℝ
  spole : Prop
  rvs : ℝ
  H_x1 : ℝ
  H_n : ℝ
  cut : ℝ
  distLo : ℝ
  distHi : ℝ

/-- Member-initializer list of `zipf_distribution` (zipf.h lines 76-85). -/
def zipfState (n : ℕ) (s q : ℝ) : ZipfDist :=
  let oms := 1 - s
  let spole := |oms| < epsilon
  let rvs := if spole then (0 : ℝ) else 1 / oms
  { n := n
    s := s
    q := q
    oms := oms
    spole := spole
    rvs := rvs
    H_x1 := zipfH s q oms spole (3 / 2) - zipfh s q 1
    H_n := zipfH s q oms spole ((n : ℝ) + 1 / 2)
    cut := 1 - zipfHinv q oms rvs spole (zipfH s q oms spole (3 / 2) - zipfh s q 1)
    distLo := zipfH s q oms spole (3 / 2) - zipfh s q 1
    distHi := zipfH s q oms spole ((n : ℝ) + 1 / 2) }

/-- Constructor `zipf_distribution(n, s, q)` (zipf.h lines 73-89): after the
member initializers run, the body throws a range error when `-0.5 >= q`. -/
def zipfMk (n : ℕ) (s q : ℝ) : Except String ZipfDist :=
  if -(1 / 2 : ℝ) ≥ q then
    Except.error ("Range error: Parameter q must be greater than -0.5!")
  else Except.ok (zipfState n s q)

/-- Draw operator `zipf_distribution::operator()(rng)` (zipf.h lines 92-103),
driven by the finite trace `us` of uniform variates produced by the stored
`std::uniform_real_distribution` member; `none` when the trace is exhausted
before acceptance. -/
def zipfDrawAux (d : ZipfDist) : List ℝ → Option ℤ
  | [] => none
  | u :: rest =>
    let x := zipfHinv d.q d.oms d.rvs d.spole u
    let k := cppRound x
    if (k : ℝ) - x ≤ d.cut then some k
    else if zipfH d.s d.q d.oms d.spole ((k : ℝ) + 1 / 2) - zipfh d.s d.q (k : ℝ) ≤ u then
      some k
    else zipfDrawAux d rest

/-- Draw operator of `zipf_distribution` together with the final sampler state
and the unconsumed part of the variate trace. -/
def zipfDrawFull (d : ZipfDist) : List ℝ → Option ℤ × ZipfDist × List ℝ
  | [] => (none, d, [])
  | u :: rest =>
    let x := zipfHinv d.q d.oms d.rvs d.spole u
    let k := cppRound x
    if (k : ℝ) - x ≤ d.cut then (some k, d, rest)
    else if zipfH d.s d.q d.oms d.spole ((k : ℝ) + 1 / 2) - zipfh d.s d.q (k : ℝ) ≤ u then
      (some k, d, rest)
    else zipfDrawFull d rest

/-- Probability table built by `zipf_table_distribution::init` (zipf.h lines
259-266): `_pdf[0] = 0` and `_pdf[i] = pow(q + i, -s)` for `i = 1..n`. -/
def zipfTablePdf (n : ℕ) (s q : ℝ) : List ℝ :=
  0 :: (List.range n).map fun i : ℕ => (q + ((i : ℝ) + 1)) ^ (-s)

/-- State of a constructed `zipf_table_distribution` object (zipf.h
lines 251-256). -/
structure TableDist where
  pdf : List ℝ
  n : ℕ
  s : ℝ
  q : ℝ

/-- Member initialization of `zipf_table_distribution` (zipf.h lines 225-232). -/
def zipfTableState (n : ℕ) (s q : ℝ) : TableDist :=
  { pdf := zipfTablePdf n s q, n := n, s := s, q := q }

/-- Constructor `zipf_table_distribution(n, s, q)` (zipf.h lines 225-232): the
constructor performs no parameter validation and always succeeds. -/
def zipfTableMk (n : ℕ) (s q : ℝ) : Except String TableDist :=
  Except.ok (zipfTableState n s q)

/-- Semantics of the stored `std::discrete_distribution` member: the raw
uniform variate `r ∈ [0, Σ ws)` selects by inversion the first index whose
cumulative weight exceeds it. -/
def discreteDraw : List ℝ → ℝ → ℕ
  | [], _ => 0
  | w :: rest, r => if r < w then 0 else discreteDraw rest (r - w) + 1

/-- Draw operator `zipf_table_distribution::operator()(rng)` (zipf.h lines
235-238). -/
def zipfTableDraw (t : TableDist) (r : ℝ) : ℕ := discreteDraw t.pdf r

/-- Draw operator of `zipf_table_distribution` together with the final
sampler state. -/
def zipfTableDrawFull (t : TableDist) (r : ℝ) : ℕ × TableDist :=
  (discreteDraw t.pdf r, t)

/-- Concrete sampler state used to instantiate the loop-structure theorem. -/
def dzero : ZipfDist :=
  { n := 1, s := 0, q := 0, oms := 0, spole := False, rvs := 0,
    H_x1 := 0, H_n := 1, cut := 1, distLo := 0, distHi := 1 }

/-- C10: the derived constants of `zipf_distribution` are exactly
`H_x1 = H(1.5) - h(1.0)`, `H_n = H(N + 0.5)` and
`cut = 1 - H_inv(H(1.5) - h(1.0)) = 1 - H_inv(H_x1)`, each determined solely
by the construction parameters `(N, s, q)`, and the uniform sampling range
used by every draw is exactly `[H_x1, H_n]`. -/
theorem zipf_derived_constants (n : ℕ) (s q : ℝ) :
    (zipfState n s q).H_x1 =
      zipfH s q (zipfState n s q).oms (zipfState n s q).spole (3 / 2) - zipfh s q 1 ∧
    (zipfState n s q).H_n =
      zipfH s q (zipfState n s q).oms (zipfState n s q).spole ((n : ℝ) + 1 / 2) ∧
    (zipfState n s q).cut =
      1 - zipfHinv q (zipfState n s q).oms (zipfState n s q).rvs (zipfState n s q).spole
        (zipfState n s q).H_x1 ∧
    (zipfState n s q).distLo = (zipfState n s q).H_x1 ∧
    (zipfState n s q).distHi = (zipfState n s q).H_n :=
  ⟨rfl, rfl, rfl, rfl, rfl⟩

/-- C2: every call of `zipf_distribution::operator()` follows exactly the
rejection-inversion loop: with `x = H_inv(u)` and `k = round(x)` for the
current uniform variate `u`, it returns `k` immediately when `k - x ≤ cut`
(fast accept, evaluated first), otherwise returns `k` when
`u ≥ H(k + 0.5) - h(k)` (squeeze accept), and otherwise repeats with the next
variate. -/
theorem zipf_rejection_loop_structure :
    (∀ d : ZipfDist, zipfDrawAux d [] = none) ∧
    (∀ (d : ZipfDist) (u : ℝ) (rest : List ℝ) (x : ℝ) (k : ℤ),
      x = zipfHinv d.q d.oms d.rvs d.spole u → k = cppRound x →
      (((k : ℝ) - x ≤ d.cut → zipfDrawAux d (u :: rest) = some k) ∧
       (¬ ((k : ℝ) - x ≤ d.cut) →
          zipfH d.s d.q d.oms d.spole ((k : ℝ) + 1 / 2) - zipfh d.s d.q (k : ℝ) ≤ u →
          zipfDrawAux d (u :: rest) = some k) ∧
       (¬ ((k : ℝ) - x ≤ d.cut) →
          ¬ (zipfH d.s d.q d.oms d.spole ((k : ℝ) + 1 / 2) - zipfh d.s d.q (k : ℝ) ≤ u) →
          zipfDrawAux d (u :: rest) = zipfDrawAux d rest))) := by
  refine ⟨fun d => rfl, ?_⟩
  rintro d u rest x k rfl rfl
  exact ⟨fun h1 => by simp only [zipfDrawAux, if_pos h1],
    fun h1 h2 => by simp only [zipfDrawAux, if_neg h1, if_pos h2],
    fun h1 h2 => by simp only [zipfDrawAux, if_neg h1, if_neg h2]⟩

/-- Witness for C2: on the concrete state `dzero` with variate `0`, the fast
accept fires and the draw returns `round(H_inv(0)) = 1`. -/
theorem zipf_rejection_loop_structure_witness : zipfDrawAux dzero [0] = some 1 := by
  have hx : zipfHinv dzero.q dzero.oms dzero.rvs dzero.spole 0 = 1 := by
    rw [zipfHinv, if_neg (by simp [dzero])]
    simp [dzero, Real.rpow_zero]
  have hk : cppRound (1 : ℝ) = 1 := by
    rw [cppRound, if_neg (by norm_num)]
    norm_num
  refine (zipf_rejection_loop_structure.2 dzero 0 [] 1 1 hx.symm hk.symm).1 ?_
  show ((1 : ℤ) : ℝ) - 1 ≤ dzero.cut
  norm_num [dzero]

/-- C3: `H` and `H_inv` are evaluated by a two-regime split selected by
whether `|1-s|` is below the tolerance: generic regime
`H(x) = (x+q)^(1-s)/(1-s)`, `H_inv(y) = (y(1-s))^(1/(1-s)) - q`; near-pole
regime `H(x) = log(x+q)·expxm1bx((1-s)·log(x+q))`,
`H_inv(y) = exp(y·log1pxbx((1-s)·y)) - q`, where `expxm1bx(t) = (e^t-1)/t`
and `log1pxbx(t) = log(1+t)/t` are computed by truncated power series when
`|t|` is small and by direct library calls otherwise. -/
theorem zipf_H_two_regimes (n : ℕ) (s q x y t : ℝ) :
    (zipfH s q (zipfState n s q).oms (zipfState n s q).spole x =
      if |1 - s| < epsilon then Real.log (x + q) * expxm1bx ((1 - s) * Real.log (x + q))
      else (x + q) ^ (1 - s) / (1 - s)) ∧
    (zipfHinv q (zipfState n s q).oms (zipfState n s q).rvs (zipfState n s q).spole y =
      if |1 - s| < epsilon then Real.exp (y * log1pxbx ((1 - s) * y)) - q
      else (y * (1 - s)) ^ (1 / (1 - s)) - q) ∧
    (epsilon < |t| → expxm1bx t = (Real.exp t - 1) / t) ∧
    (|t| ≤ epsilon → expxm1bx t = 1 + t / 2 * (1 + t / 3 * (1 + t / 4))) ∧
    (epsilon < |t| → log1pxbx t = Real.log (1 + t) / t) ∧
    (|t| ≤ epsilon → log1pxbx t = 1 - t * (1 / 2 - t * (1 / 3 - t * (1 / 4)))) := by
  have homs : (zipfState n s q).oms = 1 - s := rfl
  have hsp : (zipfState n s q).spole = (|1 - s| < epsilon) := rfl
  have hrvs : (zipfState n s q).rvs = if |1 - s| < epsilon then 0 else 1 / (1 - s) := rfl
  refine ⟨?_, ?_, fun h => by rw [expxm1bx, if_pos h],
    fun h => by rw [expxm1bx, if_neg (not_lt.mpr h)],
    fun h => by rw [log1pxbx, if_pos h],
    fun h => by rw [log1pxbx, if_neg (not_lt.mpr h)]⟩
  · rw [zipfH, homs, hsp]
  · rw [zipfHinv, homs, hsp, hrvs]
    by_cases h : |1 - s| < epsilon
    · rw [if_pos h, if_pos h]
    · rw [if_neg h, if_neg h, if_neg h, one_div]

/-- Witness for C3: at `s = 0` the generic regime is selected and the helper
takes its library branch nowhere (sample point `t = 0` takes the series). -/
theorem zipf_H_two_regimes_witness :
    zipfH 0 0 (zipfState 1 0 0).oms (zipfState 1 0 0).spole 1 =
      ((1 : ℝ) + 0) ^ ((1 : ℝ) - 0) / (1 - 0) ∧
    expxm1bx 0 = 1 + 0 / 2 * (1 + 0 / 3 * (1 + 0 / 4)) := by
  have h := zipf_H_two_regimes 1 0 0 1 0 0
  have hnot : ¬ |(1 : ℝ) - 0| < epsilon := by norm_num [epsilon]
  exact ⟨by rw [h.1, if_neg hnot], h.2.2.2.1 (by norm_num [epsilon])⟩

/-- C4: constructing `zipf_distribution` raises a parameter range error if and
only if `q ≤ -0.5`; construction with `q = -0.5` fails, with `q = -0.499999`
succeeds, and after a failed construction no usable object exists. -/
theorem zipf_ctor_validation :
    (∀ (n : ℕ) (s q : ℝ), (∃ e, zipfMk n s q = Except.error e) ↔ q ≤ -(1 / 2)) ∧
    (∃ e, zipfMk 7 2 (-(1 / 2)) = Except.error e) ∧
    zipfMk 7 2 (-0.499999) = Except.ok (zipfState 7 2 (-0.499999)) ∧
    (∀ (n : ℕ) (s q : ℝ), q ≤ -(1 / 2) → ∀ d : ZipfDist, ¬ zipfMk n s q = Except.ok d) := by
  have key : ∀ (n : ℕ) (s q : ℝ), (∃ e, zipfMk n s q = Except.error e) ↔ q ≤ -(1 / 2) := by
    intro n s q
    constructor
    · rintro ⟨e, he⟩
      by_contra hq
      rw [zipfMk, if_neg (fun h => hq (by linarith))] at he
      exact Except.noConfusion he
    · intro hq
      exact ⟨_, by rw [zipfMk, if_pos (by linarith)]⟩
  refine ⟨key, (key 7 2 (-(1 / 2))).mpr le_rfl, ?_, ?_⟩
  · rw [zipfMk, if_neg (by norm_num)]
  · intro n s q hq d hok
    obtain ⟨e, he⟩ := (key n s q).mpr hq
    rw [hok] at he
    exact Except.noConfusion he

/-- Witness for C4: construction with `q = -1 ≤ -0.5` yields no usable
object. -/
theorem zipf_ctor_validation_witness :
    ¬ zipfMk 1 1 (-1) = Except.ok (zipfState 1 1 (-1)) :=
  zipf_ctor_validation.2.2.2 1 1 (-1) (by norm_num) (zipfState 1 1 (-1))

/-- C5: constructing `zipf_table_distribution` never raises an error, for any
`q` — in particular for `q = -0.5` and `q = -1` — in contrast to
`zipf_distribution`. -/
theorem zipf_table_ctor_no_validation :
    (∀ (n : ℕ) (s q : ℝ), zipfTableMk n s q = Except.ok (zipfTableState n s q)) ∧
    zipfTableMk 5 2 (-(1 / 2)) = Except.ok (zipfTableState 5 2 (-(1 / 2))) ∧
    zipfTableMk 5 2 (-1) = Except.ok (zipfTableState 5 2 (-1)) :=
  ⟨fun _ _ _ => rfl, rfl, rfl⟩

/-- C8: a draw leaves every field of either sampler object unchanged,
consuming only the externally supplied generator's stream. -/
theorem zipf_draw_immutable :
    (∀ (d : ZipfDist) (us : List ℝ), (zipfDrawFull d us).2.1 = d) ∧
    (∀ (t : TableDist) (r : ℝ), (zipfTableDrawFull t r).2 = t) := by
  refine ⟨fun d us => ?_, fun t r => rfl⟩
  induction us with
  | nil => rfl
  | cons u rest ih =>
    by_cases h1 : ((cppRound (zipfHinv d.q d.oms d.rvs d.spole u)) : ℝ) -
        zipfHinv d.q d.oms d.rvs d.spole u ≤ d.cut
    · simp only [zipfDrawFull, if_pos h1]
    · by_cases h2 : zipfH d.s d.q d.oms d.spole
          ((cppRound (zipfHinv d.q d.oms d.rvs d.spole u) : ℝ) + 1 / 2) -
          zipfh d.s d.q (cppRound (zipfHinv d.q d.oms d.rvs d.spole u) : ℝ) ≤ u
      · simp only [zipfDrawFull, if_neg h1, if_pos h2]
      · simp only [zipfDrawFull, if_neg h1, if_neg h2]
        exact ih

/-- C9: for every `x` with `|x| ≤ 2e-5` the helpers `expxm1bx` and `log1pxbx`
take the truncated-polynomial branch (which never divides by `x`), and in the
near-pole case the constructor stores `rvs = 0` instead of computing
`1/(1-s)`. -/
theorem zipf_nearpole_no_division (n : ℕ) (s q x : ℝ) :
    (|x| ≤ epsilon → expxm1bx x = 1 + x / 2 * (1 + x / 3 * (1 + x / 4)) ∧
      log1pxbx x = 1 - x * (1 / 2 - x * (1 / 3 - x * (1 / 4)))) ∧
    (|1 - s| < epsilon → (zipfState n s q).rvs = 0) := by
  constructor
  · intro hx
    have h : ¬ epsilon < |x| := not_lt.mpr hx
    exact ⟨by rw [expxm1bx, if_neg h], by rw [log1pxbx, if_neg h]⟩
  · intro h
    show (if |1 - s| < epsilon then (0 : ℝ) else 1 / (1 - s)) = 0
    rw [if_pos h]

/-- Witness for C9: at `x = 0` the series branch is taken, and at `s = 1` the
constructor stores `rvs = 0`. -/
theorem zipf_nearpole_no_division_witness :
    expxm1bx 0 = 1 + 0 / 2 * (1 + 0 / 3 * (1 + 0 / 4)) ∧ (zipfState 1 1 0).rvs = 0 := by
  have h := zipf_nearpole_no_division 1 1 0 0
  exact ⟨(h.1 (by norm_num [epsilon])).1, h.2 (by norm_num [epsilon])⟩

lemma zipfTablePdf_length (n : ℕ) (s q : ℝ) : (zipfTablePdf n s q).length = n + 1 := by
  simp [zipfTablePdf]

lemma zipfTablePdf_getD (n : ℕ) (s q : ℝ) (i : ℕ) (h1 : 1 ≤ i) (h2 : i ≤ n) :
    (zipfTablePdf n s q).getD i 0 = (q + (i : ℝ)) ^ (-s) := by
  obtain ⟨j, rfl⟩ : ∃ j, i = j + 1 := ⟨i - 1, (Nat.succ_pred_eq_of_pos h1).symm⟩
  have hj : j < n := by omega
  have hlen : j < ((List.range n).map fun i : ℕ => (q + ((i : ℝ) + 1)) ^ (-s)).length := by
    simpa using hj
  rw [zipfTablePdf, List.getD_cons_succ, List.getD_eq_getElem _ _ hlen]
  rw [List.getElem_map, List.getElem_range]
  push_cast
  ring_nf

/-- C6: after constructing `zipf_table_distribution(N, s, q)`, the stored pmf
has length `N + 1`, entry `0` equal to `0`, and entry `i = (q + i)^(-s)` for
every `i` in `1..N`. -/
theorem zipf_table_pmf_contents (n : ℕ) (s q : ℝ) :
    (zipfTableState n s q).pdf.length = n + 1 ∧
    (zipfTableState n s q).pdf.getD 0 0 = 0 ∧
    (∀ i : ℕ, 1 ≤ i → i ≤ n → (zipfTableState n s q).pdf.getD i 0 = (q + (i : ℝ)) ^ (-s)) :=
  ⟨zipfTablePdf_length n s q, rfl, fun i h1 h2 => zipfTablePdf_getD n s q i h1 h2⟩

/-- Witness for C6: table for `N = 1, s = 0, q = 0`. -/
theorem zipf_table_pmf_contents_witness :
    (zipfTableState 1 0 0).pdf.length = 1 + 1 ∧
    (zipfTableState 1 0 0).pdf.getD 0 0 = 0 ∧
    (zipfTableState 1 0 0).pdf.getD 1 0 = (0 + ((1 : ℕ) : ℝ)) ^ (-(0 : ℝ)) := by
  have h := zipf_table_pmf_contents 1 0 0
  exact ⟨h.1, h.2.1, h.2.2 1 le_rfl le_rfl⟩

/-- C7: for exponent `s > 0` and deformation `q ≥ 0` the table weights
`(q+i)^(-s)` are strictly positive and strictly decreasing in `i` over
`1..N`. -/
theorem zipf_table_pmf_monotone (n : ℕ) (s q : ℝ) (hs : 0 < s) (hq : 0 ≤ q) :
    (∀ i : ℕ, 1 ≤ i → i ≤ n → 0 < (zipfTableState n s q).pdf.getD i 0) ∧
    (∀ i j : ℕ, 1 ≤ i → i < j → j ≤ n →
      (zipfTableState n s q).pdf.getD j 0 < (zipfTableState n s q).pdf.getD i 0) := by
  constructor
  · intro i h1 h2
    rw [show (zipfTableState n s q).pdf = zipfTablePdf n s q from rfl,
      zipfTablePdf_getD n s q i h1 h2]
    have : (0 : ℝ) < q + i := by
      have : (1 : ℝ) ≤ i := by exact_mod_cast h1
      linarith
    exact Real.rpow_pos_of_pos this _
  · intro i j h1 hij h2
    rw [show (zipfTableState n s q).pdf = zipfTablePdf n s q from rfl,
      zipfTablePdf_getD n s q i h1 (le_of_lt (lt_of_lt_of_le hij h2)),
      zipfTablePdf_getD n s q j (le_trans h1 (le_of_lt hij)) h2]
    have hi : (0 : ℝ) < q + i := by
      have : (1 : ℝ) ≤ i := by exact_mod_cast h1
      linarith
    have hlt : q + (i : ℝ) < q + j := by
      have : (i : ℝ) < j := by exact_mod_cast hij
      linarith
    exact Real.rpow_lt_rpow_of_neg hi hlt (neg_neg_iff_pos.mpr hs)

/-- Witness for C7: for `N = 2, s = 1, q = 0` the first weight is positive and
the second is smaller. -/
theorem zipf_table_pmf_monotone_witness :
    0 < (zipfTableState 2 1 0).pdf.getD 1 0 ∧
    (zipfTableState 2 1 0).pdf.getD 2 0 < (zipfTableState 2 1 0).pdf.getD 1 0 := by
  have h := zipf_table_pmf_monotone 2 1 0 (by norm_num) le_rfl
  exact ⟨h.1 1 le_rfl (by norm_num), h.2 1 2 le_rfl (by norm_num) le_rfl⟩

lemma two_rpow_le_add_rpow (m u p : ℝ) (hu : 0 ≤ u) (hum : u < m) (hp : p ≤ 0) :
    2 * m ^ p ≤ (m + u) ^ p + (m - u) ^ p := by
  have hm : 0 < m := lt_of_le_of_lt hu hum
  set g : ℝ → ℝ := fun t => (m + t) ^ p + (m - t) ^ p with hg
  rcases eq_or_lt_of_le hu with h0 | h0
  · rw [← h0, add_zero, sub_zero, two_mul]
  have hcont : ContinuousOn g (Set.Icc 0 u) := by
    apply ContinuousOn.add
    · apply ContinuousOn.rpow_const (continuous_const.add continuous_id).continuousOn
      intro t ht
      refine Or.inl (ne_of_gt ?_)
      simp only [id_eq]
      linarith [ht.1]
    · apply ContinuousOn.rpow_const (continuous_const.sub continuous_id).continuousOn
      intro t ht
      refine Or.inl (ne_of_gt ?_)
      simp only [id_eq]
      linarith [ht.2, hum]
  have hderiv : ∀ t ∈ interior (Set.Icc 0 u),
      HasDerivAt g (1 * p * (m + t) ^ (p - 1) + -1 * p * (m - t) ^ (p - 1)) t := by
    intro t ht
    rw [interior_Icc] at ht
    have hmt : (0 : ℝ) < m + t := by nlinarith [ht.1]
    have hmt' : (0 : ℝ) < m - t := by nlinarith [ht.2, hum]
    have h1 : HasDerivAt (fun t : ℝ => (m + t) ^ p) (1 * p * (m + t) ^ (p - 1)) t :=
      ((hasDerivAt_id t).const_add m).rpow_const (Or.inl hmt.ne')
    have h2 : HasDerivAt (fun t : ℝ => (m - t) ^ p) (-1 * p * (m - t) ^ (p - 1)) t :=
      ((hasDerivAt_id t).const_sub m).rpow_const (Or.inl hmt'.ne')
    exact h1.add h2
  have hmono : MonotoneOn g (Set.Icc 0 u) := by
    apply monotoneOn_of_deriv_nonneg (convex_Icc 0 u) hcont
    · intro t ht
      exact (hderiv t ht).differentiableAt.differentiableWithinAt
    · intro t ht
      rw [(hderiv t ht).deriv]
      rw [interior_Icc] at ht
      have hmt : (0 : ℝ) < m - t := by nlinarith [ht.2, hum]
      have hle : (m + t) ^ (p - 1) ≤ (m - t) ^ (p - 1) :=
        Real.rpow_le_rpow_of_nonpos hmt (by linarith [ht.1]) (by linarith)
      nlinarith [mul_nonneg (neg_nonneg.mpr hp) (sub_nonneg.mpr hle)]
  have hgu := hmono (Set.left_mem_Icc.mpr h0.le) (Set.right_mem_Icc.mpr h0.le) h0.le
  have hg0 : g 0 = 2 * m ^ p := by
    rw [hg]
    simp [two_mul]
  rw [hg0] at hgu
  exact hgu

lemma zipf_H_gap (q oms : ℝ) (hq : -(1 / 2) < q) (h1 : oms ≤ 1) (h0 : oms ≠ 0) :
    (1 + q) ^ (oms - 1) ≤ ((3 / 2 + q) ^ oms - (1 / 2 + q) ^ oms) / oms := by
  set m : ℝ := 1 + q with hmdef
  have hm : 1 / 2 < m := by rw [hmdef]; linarith
  set F : ℝ → ℝ := fun t => ((m + t) ^ oms - (m - t) ^ oms) / oms - t * (2 * m ^ (oms - 1))
    with hF
  have hcont : ContinuousOn F (Set.Icc 0 (1 / 2)) := by
    apply ContinuousOn.sub
    · apply ContinuousOn.div_const
      apply ContinuousOn.sub
      · apply ContinuousOn.rpow_const (continuous_const.add continuous_id).continuousOn
        intro t ht
        refine Or.inl (ne_of_gt ?_)
        simp only [id_eq]
        linarith [ht.1]
      · apply ContinuousOn.rpow_const (continuous_const.sub continuous_id).continuousOn
        intro t ht
        refine Or.inl (ne_of_gt ?_)
        simp only [id_eq]
        linarith [ht.2]
    · exact (continuous_id.mul continuous_const).continuousOn
  have hderiv : ∀ t ∈ interior (Set.Icc 0 (1 / 2 : ℝ)),
      HasDerivAt F ((1 * oms * (m + t) ^ (oms - 1) - -1 * oms * (m - t) ^ (oms - 1)) / oms -
        1 * (2 * m ^ (oms - 1))) t := by
    intro t ht
    rw [interior_Icc] at ht
    have hmt : (0 : ℝ) < m + t := by nlinarith [ht.1]
    have hmt' : (0 : ℝ) < m - t := by nlinarith [ht.2]
    have ha : HasDerivAt (fun t : ℝ => (m + t) ^ oms) (1 * oms * (m + t) ^ (oms - 1)) t :=
      ((hasDerivAt_id t).const_add m).rpow_const (Or.inl hmt.ne')
    have hb : HasDerivAt (fun t : ℝ => (m - t) ^ oms) (-1 * oms * (m - t) ^ (oms - 1)) t :=
      ((hasDerivAt_id t).const_sub m).rpow_const (Or.inl hmt'.ne')
    exact ((ha.sub hb).div_const oms).sub ((hasDerivAt_id t).mul_const (2 * m ^ (oms - 1)))
  have hmono : MonotoneOn F (Set.Icc 0 (1 / 2)) := by
    apply monotoneOn_of_deriv_nonneg (convex_Icc 0 (1 / 2)) hcont
    · intro t ht
      exact (hderiv t ht).differentiableAt.differentiableWithinAt
    · intro t ht
      rw [(hderiv t ht).deriv]
      rw [interior_Icc] at ht
      have key : 2 * m ^ (oms - 1) ≤ (m + t) ^ (oms - 1) + (m - t) ^ (oms - 1) :=
        two_rpow_le_add_rpow m t (oms - 1) ht.1.le (by linarith [ht.2]) (by linarith)
      have hsimp : (1 * oms * (m + t) ^ (oms - 1) - -1 * oms * (m - t) ^ (oms - 1)) / oms =
          (m + t) ^ (oms - 1) + (m - t) ^ (oms - 1) := by
        field_simp
        ring
      rw [hsimp]
      linarith
  have hF0 : F 0 = 0 := by
    rw [hF]
    simp
  have hFu := hmono (Set.left_mem_Icc.mpr (by norm_num)) (Set.right_mem_Icc.mpr (by norm_num))
    (by norm_num : (0 : ℝ) ≤ 1 / 2)
  rw [hF0] at hFu
  have hFval : F (1 / 2) = ((3 / 2 + q) ^ oms - (1 / 2 + q) ^ oms) / oms - m ^ (oms - 1) := by
    have e1 : m + 1 / 2 = 3 / 2 + q := by rw [hmdef]; ring
    have e2 : m - 1 / 2 = 1 / 2 + q := by rw [hmdef]; ring
    simp only [hF]
    rw [e1, e2]
    ring
  rw [hFval] at hFu
  rw [hmdef] at hFu
  linarith

lemma rpow_rpow_inv (a oms : ℝ) (ha : 0 < a) (h0 : oms ≠ 0) : (a ^ oms) ^ (1 / oms) = a := by
  rw [← Real.rpow_mul ha.le, mul_one_div, div_self h0, Real.rpow_one]

lemma zipf_x_bounds (n : ℕ) (s q u : ℝ) (hn : 1 ≤ n) (hq : -(1 / 2) < q) (hs : 0 ≤ s)
    (hso : 1 - s ≠ 0)
    (hu1 : (3 / 2 + q) ^ (1 - s) / (1 - s) - (1 + q) ^ (-s) ≤ u)
    (hu2 : u < ((n : ℝ) + 1 / 2 + q) ^ (1 - s) / (1 - s)) :
    1 / 2 ≤ (u * (1 - s)) ^ (1 / (1 - s)) - q ∧
      (u * (1 - s)) ^ (1 / (1 - s)) - q < (n : ℝ) + 1 / 2 := by
  set oms : ℝ := 1 - s with homs
  have hkey := zipf_H_gap q oms hq (by rw [homs]; linarith) hso
  have hexp : -s = oms - 1 := by rw [homs]; ring
  have ha : (0 : ℝ) < 1 / 2 + q := by linarith
  have hb : (0 : ℝ) < (n : ℝ) + 1 / 2 + q := by
    have : (1 : ℝ) ≤ n := by exact_mod_cast hn
    linarith
  have hu1' : (1 / 2 + q) ^ oms / oms ≤ u := by
    rw [hexp] at hu1
    have hsd : ((3 / 2 + q) ^ oms - (1 / 2 + q) ^ oms) / oms =
        (3 / 2 + q) ^ oms / oms - (1 / 2 + q) ^ oms / oms := sub_div _ _ _
    linarith [hkey, hsd.symm.le]
  rcases hso.lt_or_lt with hneg | hpos
  · -- oms < 0 : H is negative-valued, both divisions flip
    have h1 : u * oms ≤ (1 / 2 + q) ^ oms := (div_le_iff_of_neg hneg).mp hu1'
    have h2 : ((n : ℝ) + 1 / 2 + q) ^ oms < u * oms := (lt_div_iff_of_neg hneg).mp hu2
    have hupos : 0 < u * oms := lt_trans (Real.rpow_pos_of_pos hb oms) h2
    constructor
    · have := Real.rpow_le_rpow_of_nonpos hupos h1 (by
        have : 1 / oms < 0 := one_div_neg.mpr hneg
        linarith)
      rw [rpow_rpow_inv _ _ ha hso] at this
      linarith
    · have := Real.rpow_lt_rpow_of_neg (Real.rpow_pos_of_pos hb oms) h2 (one_div_neg.mpr hneg)
      rw [rpow_rpow_inv _ _ hb hso] at this
      linarith
  · -- 0 < oms
    have h1 : (1 / 2 + q) ^ oms ≤ u * oms := by
      have := (div_le_iff₀ hpos).mp hu1'
      linarith
    have h2 : u * oms < ((n : ℝ) + 1 / 2 + q) ^ oms := by
      have := (lt_div_iff₀ hpos).mp hu2
      linarith
    constructor
    · have := Real.rpow_le_rpow (Real.rpow_nonneg ha.le oms) h1 (le_of_lt (one_div_pos.mpr hpos))
      rw [rpow_rpow_inv _ _ ha hso] at this
      linarith
    · have h0u : 0 ≤ u * oms := le_trans (Real.rpow_nonneg ha.le oms) h1
      have := Real.rpow_lt_rpow h0u h2 (one_div_pos.mpr hpos)
      rw [rpow_rpow_inv _ _ hb hso] at this
      linarith

lemma cppRound_bounds (x' : ℝ) (n : ℕ) (hlo : 1 / 2 ≤ x') (hhi : x' < (n : ℝ) + 1 / 2) :
    1 ≤ cppRound x' ∧ cppRound x' ≤ (n : ℤ) := by
  rw [cppRound, if_neg (by linarith : ¬ x' < 0)]
  constructor
  · refine Int.le_floor.mpr ?_
    push_cast
    linarith
  · have h : ⌊x' + 1 / 2⌋ < (n : ℤ) + 1 := by
      refine Int.floor_lt.mpr ?_
      push_cast
      linarith
    exact Int.lt_add_one_iff.mp h

lemma zipfDrawAux_sound (d : ZipfDist) (P : ℤ → Prop)
    (h : ∀ u, d.distLo ≤ u → u < d.distHi →
      P (cppRound (zipfHinv d.q d.oms d.rvs d.spole u))) :
    ∀ us, (∀ u ∈ us, d.distLo ≤ u ∧ u < d.distHi) → ∀ k, zipfDrawAux d us = some k → P k := by
  intro us
  induction us with
  | nil =>
    intro _ k hk
    exact Option.noConfusion hk
  | cons u rest ih =>
    intro hus k hk
    have hu := hus u (List.mem_cons_self u rest)
    by_cases h1 : ((cppRound (zipfHinv d.q d.oms d.rvs d.spole u)) : ℝ) -
        zipfHinv d.q d.oms d.rvs d.spole u ≤ d.cut
    · simp only [zipfDrawAux, if_pos h1, Option.some.injEq] at hk
      rw [← hk]
      exact h u hu.1 hu.2
    · by_cases h2 : zipfH d.s d.q d.oms d.spole
          ((cppRound (zipfHinv d.q d.oms d.rvs d.spole u) : ℝ) + 1 / 2) -
          zipfh d.s d.q (cppRound (zipfHinv d.q d.oms d.rvs d.spole u) : ℝ) ≤ u
      · simp only [zipfDrawAux, if_neg h1, if_pos h2, Option.some.injEq] at hk
        rw [← hk]
        exact h u hu.1 hu.2
      · simp only [zipfDrawAux, if_neg h1, if_neg h2] at hk
        exact ih (fun v hv => hus v (List.mem_cons_of_mem u hv)) k hk

lemma discreteDraw_lt_length :
    ∀ (ws : List ℝ) (r : ℝ), 0 ≤ r → r < ws.sum → discreteDraw ws r < ws.length := by
  intro ws
  induction ws with
  | nil =>
    intro r h0 hs
    simp only [List.sum_nil] at hs
    linarith
  | cons w rest ih =>
    intro r h0 hs
    rw [List.sum_cons] at hs
    by_cases h : r < w
    · simp only [discreteDraw, if_pos h, List.length_cons]
      exact Nat.succ_pos _
    · simp only [discreteDraw, if_neg h, List.length_cons]
      have hw : w ≤ r := not_lt.mp h
      exact Nat.succ_lt_succ (ih (r - w) (by linarith) (by linarith))

/-- Positive complement to the support-bound bug: for `q > -0.5` every value
returned by `zipf_table_distribution::operator()` lies in `[1, N]`, and every
value returned by `zipf_distribution::operator()` lies in `[1, N]` whenever
additionally `s ≥ 0` and `s` is in the generic regime `|1-s| ≥ 2e-5`. -/
theorem zipf_support_bound_generic :
    (∀ (n : ℕ) (s q : ℝ) (us : List ℝ) (k : ℤ),
      1 ≤ n → -(1 / 2) < q → 0 ≤ s → epsilon ≤ |1 - s| →
      (∀ u ∈ us, (zipfState n s q).distLo ≤ u ∧ u < (zipfState n s q).distHi) →
      zipfDrawAux (zipfState n s q) us = some k →
      1 ≤ k ∧ k ≤ (n : ℤ)) ∧
    (∀ (n : ℕ) (s q r : ℝ), 0 ≤ r → r < (zipfTableState n s q).pdf.sum →
      1 ≤ zipfTableDraw (zipfTableState n s q) r ∧
        zipfTableDraw (zipfTableState n s q) r ≤ n) := by
  constructor
  · intro n s q us k hn hq hs hgen hus hk
    have hnsp : ¬ (|1 - s| < epsilon) := not_lt.mpr hgen
    have hso : (1 : ℝ) - s ≠ 0 := by
      intro h
      rw [h, abs_zero] at hgen
      have : (0 : ℝ) < epsilon := by norm_num [epsilon]
      linarith
    have hrvs : (zipfState n s q).rvs = 1 / (1 - s) := by
      show (if |1 - s| < epsilon then (0 : ℝ) else 1 / (1 - s)) = 1 / (1 - s)
      rw [if_neg hnsp]
    have hLo : (zipfState n s q).distLo =
        (3 / 2 + q) ^ (1 - s) / (1 - s) - (1 + q) ^ (-s) := by
      show zipfH s q (1 - s) (|1 - s| < epsilon) (3 / 2) - zipfh s q 1 = _
      rw [zipfH, if_neg hnsp, zipfh]
    have hHi : (zipfState n s q).distHi = ((n : ℝ) + 1 / 2 + q) ^ (1 - s) / (1 - s) := by
      show zipfH s q (1 - s) (|1 - s| < epsilon) ((n : ℝ) + 1 / 2) = _
      rw [zipfH, if_neg hnsp]
    refine zipfDrawAux_sound (zipfState n s q) (fun k => 1 ≤ k ∧ k ≤ (n : ℤ)) ?_ us hus k hk
    intro u hu1 hu2
    rw [hLo] at hu1
    rw [hHi] at hu2
    have hxinv : zipfHinv (zipfState n s q).q (zipfState n s q).oms (zipfState n s q).rvs
        (zipfState n s q).spole u = (u * (1 - s)) ^ (1 / (1 - s)) - q := by
      rw [hrvs]
      show zipfHinv q (1 - s) (1 / (1 - s)) (|1 - s| < epsilon) u = _
      rw [zipfHinv, if_neg hnsp]
    rw [hxinv]
    have hb := zipf_x_bounds n s q u hn hq hs hso hu1 hu2
    exact cppRound_bounds _ n hb.1 hb.2
  · intro n s q r h0 hr
    constructor
    · show 1 ≤ discreteDraw (zipfTablePdf n s q) r
      rw [zipfTablePdf]
      simp only [discreteDraw, if_neg (not_lt.mpr h0)]
      exact Nat.succ_le_succ (Nat.zero_le _)
    · have h := discreteDraw_lt_length (zipfTablePdf n s q) r h0 hr
      rw [zipfTablePdf_length] at h
      exact Nat.lt_succ_iff.mp h

/-- C1: the code violates its own documented support bound (zipf.h line 70,
"in the range `[1,N]` inclusive", and the `min() = 1` accessor): for
`N = 2, s = -0.5, q = 0` — accepted by the constructor, which validates only
`q` — construction succeeds, the first point of the uniform sampling range is
a legal draw, and it is fast-accepted as `round(H_inv(H_x1)) = 0`, outside
`[1, N]`. -/
theorem zipf_support_bound_cex :
    zipfMk 2 (-(1 / 2)) 0 = Except.ok (zipfState 2 (-(1 / 2)) 0) ∧
    (zipfState 2 (-(1 / 2)) 0).distLo ≤ (zipfState 2 (-(1 / 2)) 0).distLo ∧
    (zipfState 2 (-(1 / 2)) 0).distLo < (zipfState 2 (-(1 / 2)) 0).distHi ∧
    zipfDrawAux (zipfState 2 (-(1 / 2)) 0) [(zipfState 2 (-(1 / 2)) 0).distLo] = some 0 ∧
    ¬ (1 ≤ (0 : ℤ)) := by
  have hnsp : ¬ (|(1 : ℝ) - -(1 / 2)| < epsilon) := by
    rw [show |(1 : ℝ) - -(1 / 2)| = 3 / 2 by rw [abs_of_pos] <;> norm_num]
    norm_num [epsilon]
  have hS2 : Real.sqrt (27 / 8) ^ 2 = 27 / 8 := Real.sq_sqrt (by norm_num)
  have hS0 : (0 : ℝ) ≤ Real.sqrt (27 / 8) := Real.sqrt_nonneg _
  have hSlb : (3 : ℝ) / 2 ≤ Real.sqrt (27 / 8) := by nlinarith
  have hSub : Real.sqrt (27 / 8) < 2 := by nlinarith
  have hT2 : Real.sqrt (1 / 8) ^ 2 = 1 / 8 := Real.sq_sqrt (by norm_num)
  have hT0 : (0 : ℝ) ≤ Real.sqrt (1 / 8) := Real.sqrt_nonneg _
  have hTgt : (1 : ℝ) / 3 < Real.sqrt (1 / 8) := by nlinarith
  have hW2 : Real.sqrt (125 / 8) ^ 2 = 125 / 8 := Real.sq_sqrt (by norm_num)
  have hW0 : (0 : ℝ) ≤ Real.sqrt (125 / 8) := Real.sqrt_nonneg _
  have hWgt : (3 : ℝ) < Real.sqrt (125 / 8) := by nlinarith
  have hgen : ∀ a : ℝ, 0 ≤ a → a ^ ((3 : ℝ) / 2) = Real.sqrt (a ^ (3 : ℕ)) := by
    intro a ha
    rw [show ((3 : ℝ) / 2) = ((3 : ℕ) : ℝ) * (1 / 2) by norm_num,
      Real.rpow_mul ha, Real.rpow_natCast, ← Real.sqrt_eq_rpow]
  have hpow32 : (3 / 2 : ℝ) ^ ((3 : ℝ) / 2) = Real.sqrt (27 / 8) := by
    rw [hgen (3 / 2) (by norm_num)]
    norm_num
  have hpow52 : (5 / 2 : ℝ) ^ ((3 : ℝ) / 2) = Real.sqrt (125 / 8) := by
    rw [hgen (5 / 2) (by norm_num)]
    norm_num
  have hpow12 : (1 / 2 : ℝ) ^ ((3 : ℝ) / 2) = Real.sqrt (1 / 8) := by
    rw [hgen (1 / 2) (by norm_num)]
    norm_num
  have hLo : (zipfState 2 (-(1 / 2)) 0).distLo = Real.sqrt (27 / 8) / (3 / 2) - 1 := by
    show zipfH (-(1 / 2)) 0 (1 - -(1 / 2)) (|(1 : ℝ) - -(1 / 2)| < epsilon) (3 / 2) -
      zipfh (-(1 / 2)) 0 1 = _
    rw [zipfH, if_neg hnsp, zipfh]
    rw [show ((3 : ℝ) / 2 + 0) = 3 / 2 by norm_num,
      show ((1 : ℝ) - -(1 / 2)) = (3 : ℝ) / 2 by norm_num,
      show ((1 : ℝ) + 0) = 1 by norm_num, show (-(-(1 / 2)) : ℝ) = 1 / 2 by norm_num,
      Real.one_rpow, hpow32]
  have hHi : (zipfState 2 (-(1 / 2)) 0).distHi = Real.sqrt (125 / 8) / (3 / 2) := by
    show zipfH (-(1 / 2)) 0 (1 - -(1 / 2)) (|(1 : ℝ) - -(1 / 2)| < epsilon)
      (((2 : ℕ) : ℝ) + 1 / 2) = _
    rw [zipfH, if_neg hnsp]
    rw [show (((2 : ℕ) : ℝ) + 1 / 2 + 0) = 5 / 2 by push_cast; ring,
      show ((1 : ℝ) - -(1 / 2)) = (3 : ℝ) / 2 by norm_num, hpow52]
  have hX : zipfHinv (zipfState 2 (-(1 / 2)) 0).q (zipfState 2 (-(1 / 2)) 0).oms
      (zipfState 2 (-(1 / 2)) 0).rvs (zipfState 2 (-(1 / 2)) 0).spole
      ((zipfState 2 (-(1 / 2)) 0).distLo) =
      (Real.sqrt (27 / 8) - 3 / 2) ^ ((2 : ℝ) / 3) := by
    rw [hLo]
    show zipfHinv 0 (1 - -(1 / 2))
      (if |(1 : ℝ) - -(1 / 2)| < epsilon then 0 else 1 / (1 - -(1 / 2)))
      (|(1 : ℝ) - -(1 / 2)| < epsilon) (Real.sqrt (27 / 8) / (3 / 2) - 1) = _
    rw [zipfHinv, if_neg hnsp, if_neg hnsp]
    rw [show ((1 : ℝ) - -(1 / 2)) = (3 : ℝ) / 2 by norm_num]
    rw [show (Real.sqrt (27 / 8) / (3 / 2) - 1) * ((3 : ℝ) / 2) =
      Real.sqrt (27 / 8) - 3 / 2 by ring]
    rw [show (1 : ℝ) / ((3 : ℝ) / 2) = (2 : ℝ) / 3 by norm_num]
    ring
  have hbase0 : (0 : ℝ) ≤ Real.sqrt (27 / 8) - 3 / 2 := by linarith
  have hX0 : (0 : ℝ) ≤ (Real.sqrt (27 / 8) - 3 / 2) ^ ((2 : ℝ) / 3) :=
    Real.rpow_nonneg hbase0 _
  have hXlt : (Real.sqrt (27 / 8) - 3 / 2) ^ ((2 : ℝ) / 3) < 1 / 2 := by
    have hbaselt : Real.sqrt (27 / 8) - 3 / 2 < (1 / 2 : ℝ) ^ ((3 : ℝ) / 2) := by
      rw [hpow12]
      nlinarith
    have hcol : (((1 / 2 : ℝ) ^ ((3 : ℝ) / 2)) ^ ((2 : ℝ) / 3)) = 1 / 2 := by
      rw [← Real.rpow_mul (by norm_num : (0 : ℝ) ≤ 1 / 2),
        show ((3 : ℝ) / 2 * (2 / 3)) = 1 by norm_num, Real.rpow_one]
    calc (Real.sqrt (27 / 8) - 3 / 2) ^ ((2 : ℝ) / 3)
        < (((1 / 2 : ℝ) ^ ((3 : ℝ) / 2)) ^ ((2 : ℝ) / 3)) :=
          Real.rpow_lt_rpow hbase0 hbaselt (by norm_num)
      _ = 1 / 2 := hcol
  have hk0 : cppRound ((Real.sqrt (27 / 8) - 3 / 2) ^ ((2 : ℝ) / 3)) = 0 := by
    rw [cppRound, if_neg (not_lt.mpr hX0)]
    refine Int.floor_eq_zero_iff.mpr ?_
    constructor
    · linarith
    · linarith
  have hcut : (zipfState 2 (-(1 / 2)) 0).cut =
      1 - (Real.sqrt (27 / 8) - 3 / 2) ^ ((2 : ℝ) / 3) := by
    show 1 - zipfHinv (zipfState 2 (-(1 / 2)) 0).q (zipfState 2 (-(1 / 2)) 0).oms
      (zipfState 2 (-(1 / 2)) 0).rvs (zipfState 2 (-(1 / 2)) 0).spole
      ((zipfState 2 (-(1 / 2)) 0).distLo) = _
    rw [hX]
  refine ⟨by rw [zipfMk, if_neg (by norm_num)], le_refl _, ?_, ?_, by norm_num⟩
  · rw [hLo, hHi]
    nlinarith
  · simp only [zipfDrawAux]
    rw [hX, hk0, hcut]
    rw [if_pos (by push_cast; linarith)]

/-- Instantiation check of the generic-regime support bound: for
`N = 1, s = 0, q = 0` the draw at the low end of the range returns
`1 ∈ [1, 1]`, and the table draw at `r = 0` returns `1 ∈ [1, 1]`. -/
theorem zipf_support_bound_generic_check :
    zipfDrawAux (zipfState 1 0 0) [(zipfState 1 0 0).distLo] = some 1 ∧
    (1 ≤ (1 : ℤ) ∧ (1 : ℤ) ≤ ((1 : ℕ) : ℤ)) ∧
    (1 ≤ zipfTableDraw (zipfTableState 1 0 0) 0 ∧ zipfTableDraw (zipfTableState 1 0 0) 0 ≤ 1) := by
  have hnsp : ¬ (|(1 : ℝ) - 0| < epsilon) := by norm_num [epsilon]
  have hLo : (zipfState 1 0 0).distLo = 1 / 2 := by
    show zipfH 0 0 (1 - 0) (|(1 : ℝ) - 0| < epsilon) (3 / 2) - zipfh 0 0 1 = _
    rw [zipfH, if_neg hnsp, zipfh]
    rw [show ((3 : ℝ) / 2 + 0) = 3 / 2 by norm_num, show ((1 : ℝ) - 0) = 1 by norm_num,
      show ((1 : ℝ) + 0) = 1 by norm_num, show (-(0 : ℝ)) = 0 by norm_num,
      Real.rpow_one, Real.rpow_zero]
    norm_num
  have hHi : (zipfState 1 0 0).distHi = 3 / 2 := by
    show zipfH 0 0 (1 - 0) (|(1 : ℝ) - 0| < epsilon) (((1 : ℕ) : ℝ) + 1 / 2) = _
    rw [zipfH, if_neg hnsp]
    rw [show (((1 : ℕ) : ℝ) + 1 / 2 + 0) = 3 / 2 by push_cast; ring,
      show ((1 : ℝ) - 0) = 1 by norm_num, Real.rpow_one]
    norm_num
  have hX : zipfHinv (zipfState 1 0 0).q (zipfState 1 0 0).oms (zipfState 1 0 0).rvs
      (zipfState 1 0 0).spole ((zipfState 1 0 0).distLo) = 1 / 2 := by
    rw [hLo]
    show zipfHinv 0 (1 - 0) (if |(1 : ℝ) - 0| < epsilon then 0 else 1 / (1 - 0))
      (|(1 : ℝ) - 0| < epsilon) (1 / 2) = _
    rw [zipfHinv, if_neg hnsp, if_neg hnsp]
    rw [show ((1 : ℝ) - 0) = 1 by norm_num]
    rw [show ((1 : ℝ) / 2 * 1) = 1 / 2 by ring, show ((1 : ℝ) / 1) = 1 by norm_num,
      Real.rpow_one]
    ring
  have hk1 : cppRound (1 / 2 : ℝ) = 1 := by
    rw [cppRound, if_neg (by norm_num)]
    rw [show ((1 : ℝ) / 2 + 1 / 2) = 1 by ring]
    exact Int.floor_one
  have hcut : (zipfState 1 0 0).cut = 1 / 2 := by
    show 1 - zipfHinv (zipfState 1 0 0).q (zipfState 1 0 0).oms (zipfState 1 0 0).rvs
      (zipfState 1 0 0).spole ((zipfState 1 0 0).distLo) = _
    rw [hX]
    norm_num
  have hdraw : zipfDrawAux (zipfState 1 0 0) [(zipfState 1 0 0).distLo] = some 1 := by
    simp only [zipfDrawAux]
    rw [hX, hk1, hcut]
    rw [if_pos (by push_cast; linarith)]
  have hsum : (0 : ℝ) < (zipfTableState 1 0 0).pdf.sum := by
    show (0 : ℝ) < (zipfTablePdf 1 0 0).sum
    rw [zipfTablePdf]
    simp only [List.range_succ, List.range_zero, List.nil_append, List.map_cons, List.map_nil,
      List.sum_cons, List.sum_nil]
    rw [show ((0 : ℝ) + (((0 : ℕ) : ℝ) + 1)) = 1 by push_cast; ring, show (-(0 : ℝ)) = 0 by norm_num,
      Real.rpow_zero]
    norm_num
  refine ⟨hdraw, ?_, ?_⟩
  · refine zipf_support_bound_generic.1 1 0 0 [(zipfState 1 0 0).distLo] 1 le_rfl (by norm_num)
      le_rfl (by norm_num [epsilon]) ?_ hdraw
    intro u hu
    rw [List.mem_singleton] at hu
    subst hu
    exact ⟨le_refl _, by rw [hLo, hHi]; norm_num⟩
  · exact zipf_support_bound_generic.2 1 0 0 0 le_rfl hsum

end

end Zipf
